import Mathlib

/-!
Verification of the Minesweeper AI (minesweeper.py): board model,
`Sentence` knowledge statements, and the `MinesweeperAI` inference engine.

The embedding translates the Python source directly:
- Python sets become `Finset`; Python lists become `List`.
- Cells are pairs of integers (Python int coordinates).
- Mutation is modelled by explicit state passing.
- Python's list indexing (including negative-index wraparound and
  `IndexError`) is modelled by `pyGet` returning `Option`.
- The random draws of `random.randrange` in `Minesweeper.__init__` are
  modelled by an explicit stream of picks; exhausting a finite stream
  without finishing models non-termination of the `while` loop.
-/

abbrev Cell := ℤ × ℤ

/-- `Sentence.__init__` stores the cell set and count and starts with empty
`safe_cells` / `mines_cells`. -/
structure Sentence where
  cells : Finset Cell
  count : ℤ
  safe_cells : Finset Cell
  mines_cells : Finset Cell
deriving DecidableEq

/-- `Sentence(cells, count)`: the constructor. -/
def mkSentence (cells : Finset Cell) (count : ℤ) : Sentence :=
  { cells := cells, count := count, safe_cells := ∅, mines_cells := ∅ }

/-- `Sentence.known_mines`. -/
def Sentence.known_mines (s : Sentence) : Finset Cell := s.mines_cells

/-- `Sentence.known_safes`. -/
def Sentence.known_safes (s : Sentence) : Finset Cell := s.safe_cells

/-- `Sentence.conclude`: if `count == 0` move all cells to safe; then if
`count == len(cells)` move all cells to mines. -/
def Sentence.conclude (s : Sentence) : Sentence :=
  let s1 := if s.count = 0 then
      { s with safe_cells := s.safe_cells ∪ s.cells, cells := ∅ }
    else s
  if s1.count = (s1.cells.card : ℤ) then
    { s1 with mines_cells := s1.mines_cells ∪ s1.cells, cells := ∅ }
  else s1

/-- `Sentence.mark_mine`: no-op when the cell is absent; else remove it,
record it as a mine, decrement the count, and conclude. -/
def Sentence.mark_mine (s : Sentence) (c : Cell) : Sentence :=
  if c ∈ s.cells then
    Sentence.conclude
      { s with cells := s.cells.erase c,
               mines_cells := insert c s.mines_cells,
               count := s.count - 1 }
  else s

/-- `Sentence.mark_safe`: no-op when the cell is absent; else remove it,
record it as safe (count unchanged), and conclude. -/
def Sentence.mark_safe (s : Sentence) (c : Cell) : Sentence :=
  if c ∈ s.cells then
    Sentence.conclude
      { s with cells := s.cells.erase c,
               safe_cells := insert c s.safe_cells }
  else s

/-- The engine state of `MinesweeperAI`. -/
structure AIState where
  height : ℤ
  width : ℤ
  moves_made : Finset Cell
  mines : Finset Cell
  safes : Finset Cell
  knowledge : List Sentence
  parent : List ℕ


/-- `MinesweeperAI.__init__`. -/
def AIState.init (height width : ℤ) : AIState :=
  { height := height, width := width, moves_made := ∅, mines := ∅,
    safes := ∅, knowledge := [], parent := [] }

/-- `MinesweeperAI.mark_mine`: add to `self.mines` and broadcast
`Sentence.mark_mine` to every sentence in knowledge. -/
def AIState.mark_mine (st : AIState) (c : Cell) : AIState :=
  { st with mines := insert c st.mines,
            knowledge := st.knowledge.map (fun s => s.mark_mine c) }

/-- `MinesweeperAI.mark_safe`: add to `self.safes` and broadcast
`Sentence.mark_safe` to every sentence in knowledge. -/
def AIState.mark_safe (st : AIState) (c : Cell) : AIState :=
  { st with safes := insert c st.safes,
            knowledge := st.knowledge.map (fun s => s.mark_safe c) }

/-- The two nested `range(cell ± 1)` loops of `get_sentence` /
`nearby_mines`, with the cell itself skipped (bounds not yet applied). -/
def nbhd (cell : Cell) : List Cell :=
  (([cell.1 - 1, cell.1, cell.1 + 1].flatMap fun i =>
    [cell.2 - 1, cell.2, cell.2 + 1].map fun j => ((i, j) : Cell))).filter
    (fun p => p ≠ cell)

/-- `MinesweeperAI.get_sentence`: in-bounds neighbors already known as
mines decrement the score and are excluded; neighbors known safe are
excluded; the rest form the sentence's cells. -/
def AIState.get_sentence (st : AIState) (cell : Cell) (score : ℤ) : Sentence :=
  let inb := (nbhd cell).filter
    (fun p => 0 ≤ p.1 ∧ p.1 < st.height ∧ 0 ≤ p.2 ∧ p.2 < st.width)
  let newScore := score - ((inb.filter (fun p => p ∈ st.mines)).length : ℤ)
  let neighbors :=
    (inb.filter (fun p => p ∉ st.mines ∧ p ∉ st.safes)).toFinset
  mkSentence neighbors newScore

/-- `MinesweeperAI.inferences`: subset elimination between two sentences,
`None` when `a.cells` is empty, when `a.cells` is not a subset of
`b.cells`, or when the derived cell set is empty. -/
def AIState.inferences (a b : Sentence) : Option Sentence :=
  if a.cells.card = 0 then none
  else if a.cells ⊆ b.cells then
    let new_sentence := mkSentence (b.cells \ a.cells) (b.count - a.count)
    if new_sentence.cells.card ≠ 0 then some new_sentence else none
  else none

/-- A default sentence used only to totalize list indexing at indices that
are in range by construction. -/
def defaultSentence : Sentence := mkSentence ∅ 0

/-- One iteration of the first loop of `add_knowledge`: conclude the
`k`-th sentence in place and fold its `known_safes` / `known_mines` into
the engine's global sets (no broadcast to other sentences). -/
def AIState.simplStep (acc : AIState) (k : ℕ) : AIState :=
  let s := (acc.knowledge.getD k defaultSentence).conclude
  { acc with knowledge := acc.knowledge.set k s,
             safes := acc.safes ∪ s.known_safes,
             mines := acc.mines ∪ s.known_mines }

/-- The first loop of `add_knowledge`: conclude every sentence in order and
fold its `known_safes` / `known_mines` into the engine's global sets. -/
def AIState.simplPass (st : AIState) : AIState :=
  (List.range st.knowledge.length).foldl AIState.simplStep st

/-- The body of the inner `for j` loop of `add_knowledge`'s inference
sweep. -/
def AIState.inferStep (i : ℕ) (acc : AIState) (j : ℕ) : AIState :=
  if i = j ∨ acc.parent.getD i 0 = j then acc
  else
    match AIState.inferences (acc.knowledge.getD i defaultSentence)
        (acc.knowledge.getD j defaultSentence) with
    | none => acc
    | some sent =>
      if sent.cells.card ≠ 0 then
        { acc with knowledge := acc.knowledge ++ [sent],
                   parent := acc.parent ++ [j] }
      else acc

/-- The double loop of `add_knowledge`'s inference sweep: the outer
`range` is evaluated once at entry; each inner `range` is evaluated when
its loop starts, so it sees sentences appended by earlier outer
iterations but not those appended within the same inner loop. -/
def AIState.inferencePass (st : AIState) : AIState :=
  (List.range st.knowledge.length).foldl (fun acc i =>
    (List.range acc.knowledge.length).foldl (AIState.inferStep i) acc) st

/-- Line `self.knowledge.append(self.get_sentence(cell, count))` of
`add_knowledge`. -/
def AIState.appendNewSentence (st : AIState) (cell : Cell) (count : ℤ) :
    AIState :=
  { st with knowledge := st.knowledge ++ [st.get_sentence cell count] }

/-- Line `self.parent.append(len(self.knowledge) - 1)` of
`add_knowledge`: the new sentence's parent is its own index. -/
def AIState.appendParent (st : AIState) : AIState :=
  { st with parent := st.parent ++ [st.knowledge.length - 1] }

/-- `MinesweeperAI.add_knowledge`: record the move, mark the cell safe,
append the new sentence with itself as parent, then run the
simplification loop and the pairwise inference loop once each. -/
def AIState.add_knowledge (st : AIState) (cell : Cell) (count : ℤ) : AIState :=
  (((({ st with moves_made := insert cell st.moves_made
      }.mark_safe cell).appendNewSentence cell count
      ).appendParent).simplPass).inferencePass

/-- Feeding an ordered sequence of `(cell, count)` observations to the
engine. -/
def AIState.run (st : AIState) (obs : List (Cell × ℤ)) : AIState :=
  obs.foldl (fun acc o => acc.add_knowledge o.1 o.2) st

/-- Python list indexing `l[i]`: non-negative indices index from the
front, negative indices from `-len(l)` wrap to the back, anything else
raises `IndexError` (modelled as `none`). -/
def pyGet {α : Type} (l : List α) (i : ℤ) : Option α :=
  if 0 ≤ i then l.get? i.toNat
  else if 0 ≤ i + l.length then l.get? (i + l.length).toNat
  else none

/-- The state built by `Minesweeper.__init__`. -/
structure Board where
  height : ℕ
  width : ℕ
  board : List (List Bool)
  mines : Finset Cell
  mines_found : Finset Cell

/-- The `while len(self.mines) != mines` placement loop of
`Minesweeper.__init__`, with the successive `randrange` draws made
explicit as `picks`; `none` means the loop did not finish within the
supplied draws (a cell already holding a mine is drawn again, exactly as
in the source). -/
def placeMines (target : ℤ) : List Cell → Finset Cell → Option (Finset Cell)
  | [], acc => if (acc.card : ℤ) = target then some acc else none
  | p :: rest, acc =>
    if (acc.card : ℤ) = target then some acc
    else placeMines target rest (insert p acc)

/-- The `self.board` grid holding `True` exactly at the placed mines. -/
def mkGrid (height width : ℕ) (ms : Finset Cell) : List (List Bool) :=
  (List.range height).map fun (i : ℕ) =>
    (List.range width).map fun (j : ℕ) => decide (((i : ℤ), (j : ℤ)) ∈ ms)

/-- `Minesweeper.__init__(height, width, mines)`: place the mines from the
draw stream; no validation of any argument is performed. -/
def mkMinesweeper (height width : ℕ) (mineTarget : ℤ) (picks : List Cell) :
    Option Board :=
  (placeMines mineTarget picks ∅).map fun ms =>
    { height := height, width := width, board := mkGrid height width ms,
      mines := ms, mines_found := ∅ }

/-- `Minesweeper.is_mine(cell)`: `self.board[i][j]` with Python indexing
semantics; `none` models an `IndexError`. -/
def Board.is_mine (b : Board) (cell : Cell) : Option Bool :=
  match pyGet b.board cell.1 with
  | none => none
  | some row => pyGet row cell.2

/-! ## Helper lemmas -/

lemma inferences_eq_some (a b : Sentence) (h1 : a.cells ≠ ∅)
    (h2 : a.cells ⊆ b.cells) (h3 : b.cells \ a.cells ≠ ∅) :
    AIState.inferences a b =
      some (mkSentence (b.cells \ a.cells) (b.count - a.count)) := by
  unfold AIState.inferences
  rw [if_neg (by simpa [Finset.card_eq_zero] using h1), if_pos h2]
  simp only [mkSentence]
  rw [if_pos (by simpa [Finset.card_eq_zero] using h3)]

lemma inferences_none_of_empty (a b : Sentence) (h : a.cells = ∅) :
    AIState.inferences a b = none := by
  unfold AIState.inferences
  rw [if_pos (by simp [h])]

lemma inferences_none_of_not_subset (a b : Sentence)
    (h : ¬ a.cells ⊆ b.cells) : AIState.inferences a b = none := by
  unfold AIState.inferences
  rcases eq_or_ne a.cells ∅ with he | he
  · rw [if_pos (by simp [he])]
  · rw [if_neg (by simpa [Finset.card_eq_zero] using he), if_neg h]

lemma inferences_none_of_diff_empty (a b : Sentence) (h1 : a.cells ≠ ∅)
    (h2 : a.cells ⊆ b.cells) (h3 : b.cells \ a.cells = ∅) :
    AIState.inferences a b = none := by
  unfold AIState.inferences
  rw [if_neg (by simpa [Finset.card_eq_zero] using h1), if_pos h2]
  simp only [mkSentence]
  rw [if_neg (by simp [Finset.card_eq_zero, h3])]

/-! ## Claims -/

/-- C10: the `Sentence` constructor performs no simplification: the stored
cell set is exactly the given one and both known sets start empty, even
when `count = 0` or `count = |cells|` with non-empty cells; resolution
happens only once `conclude` is called. -/
theorem C10_constructor_no_presimplify (cells : Finset Cell) (count : ℤ) :
    (mkSentence cells count).cells = cells ∧
    (mkSentence cells count).known_safes = ∅ ∧
    (mkSentence cells count).known_mines = ∅ ∧
    (mkSentence cells 0).conclude.known_safes = cells ∧
    (count = (cells.card : ℤ) →
      (mkSentence cells count).conclude.known_mines = cells) := by
  refine ⟨rfl, rfl, rfl, ?_, ?_⟩
  · simp [mkSentence, Sentence.conclude, Sentence.known_safes]
  · intro hc
    rcases eq_or_ne count 0 with h0 | h0
    · have : cells = ∅ := by
        rw [← Finset.card_eq_zero]
        omega
      simp [mkSentence, Sentence.conclude, Sentence.known_mines, h0, this]
    · have hne : cells ≠ ∅ := by
        intro he
        exact h0 (by simp [hc, he])
      simp [mkSentence, Sentence.conclude, Sentence.known_mines, h0, hc, hne]

/-- C10 witness: concrete instantiation with non-empty cells and
`count = |cells|`. -/
theorem C10_witness :
    (mkSentence {((0:ℤ),(0:ℤ))} 1).cells = {((0:ℤ),(0:ℤ))} ∧
    (mkSentence {((0:ℤ),(0:ℤ))} 1).known_safes = ∅ ∧
    (mkSentence {((0:ℤ),(0:ℤ))} 1).known_mines = ∅ ∧
    (mkSentence {((0:ℤ),(0:ℤ))} 0).conclude.known_safes = {((0:ℤ),(0:ℤ))} ∧
    ((1:ℤ) = (({((0:ℤ),(0:ℤ))} : Finset Cell).card : ℤ) →
      (mkSentence {((0:ℤ),(0:ℤ))} 1).conclude.known_mines = {((0:ℤ),(0:ℤ))}) :=
  C10_constructor_no_presimplify {((0:ℤ),(0:ℤ))} 1

/-- C9: `conclude` is idempotent: a second call with no intervening
mutation changes none of cells, count, known_safes, known_mines. -/
theorem C9_conclude_idempotent (s : Sentence) :
    s.conclude.conclude.cells = s.conclude.cells ∧
    s.conclude.conclude.count = s.conclude.count ∧
    s.conclude.conclude.known_safes = s.conclude.known_safes ∧
    s.conclude.conclude.known_mines = s.conclude.known_mines := by
  have h : s.conclude.conclude = s.conclude := by
    unfold Sentence.conclude
    rcases eq_or_ne s.count 0 with h0 | h0
    · simp [h0]
    · simp only [if_neg h0]
      rcases eq_or_ne s.count (s.cells.card : ℤ) with hc | hc
      · have hne : s.cells.card ≠ 0 := by omega
        simp [hc, h0, hne]
      · simp [h0, hc]
  rw [h]
  exact ⟨rfl, rfl, rfl, rfl⟩

/-- C2: `inferences` returns none when `a.cells` is empty; otherwise, when
`a.cells ⊆ b.cells`, it returns the statement with cells
`b.cells \ a.cells` and count `b.count - a.count`, and only when that
cell set is non-empty; in all other cases it returns none. -/
theorem C2_inferences_spec (a b : Sentence) :
    (a.cells = ∅ → AIState.inferences a b = none) ∧
    (a.cells ≠ ∅ → a.cells ⊆ b.cells → b.cells \ a.cells ≠ ∅ →
      AIState.inferences a b =
        some (mkSentence (b.cells \ a.cells) (b.count - a.count))) ∧
    (a.cells ≠ ∅ → a.cells ⊆ b.cells → b.cells \ a.cells = ∅ →
      AIState.inferences a b = none) ∧
    (¬ a.cells ⊆ b.cells → AIState.inferences a b = none) :=
  ⟨inferences_none_of_empty a b,
   inferences_eq_some a b,
   inferences_none_of_diff_empty a b,
   inferences_none_of_not_subset a b⟩

/-- C2 witness: a concrete subset pair where the derived statement is
produced, and a concrete empty-`a` pair giving none. -/
theorem C2_witness :
    AIState.inferences (mkSentence {((0:ℤ),(0:ℤ))} 1)
        (mkSentence {((0:ℤ),(0:ℤ)), (0,1), (1,1)} 2) =
      some (mkSentence ({((0:ℤ),(0:ℤ)), (0,1), (1,1)} \ {((0:ℤ),(0:ℤ))})
        (2 - 1)) :=
  (C2_inferences_spec (mkSentence {((0:ℤ),(0:ℤ))} 1)
      (mkSentence {((0:ℤ),(0:ℤ)), (0,1), (1,1)} 2)).2.1
    (by decide) (by decide) (by decide)

/-- C3 counterexample: an inference step whose derived statement has a
negative count (and another whose count exceeds its cell-set size) is
silently returned as `some`; no error of any kind is reported. -/
theorem C3_counterexample :
    AIState.inferences (mkSentence {((0:ℤ),(0:ℤ))} 1)
        (mkSentence {((0:ℤ),(0:ℤ)), (0,1)} 0) =
      some (mkSentence {((0:ℤ),(1:ℤ))} (-1)) ∧
    ((-1 : ℤ) < 0) ∧
    AIState.inferences (mkSentence {((0:ℤ),(0:ℤ))} 0)
        (mkSentence {((0:ℤ),(0:ℤ)), (0,1)} 2) =
      some (mkSentence {((0:ℤ),(1:ℤ))} 2) ∧
    (({((0:ℤ),(1:ℤ))} : Finset Cell).card : ℤ) < 2 := by
  refine ⟨by decide, by decide, by decide, by decide⟩

/-- C3 amended: `inferences` performs no range check on the derived
count — whenever `a.cells` is non-empty, `a.cells ⊆ b.cells` and the
difference is non-empty, it returns the derived statement even when its
count is negative or exceeds its cell-set size; the code has no
`InconsistentKnowledge` reporting. -/
theorem C3_amended_no_range_check (a b : Sentence) (h1 : a.cells ≠ ∅)
    (h2 : a.cells ⊆ b.cells) (h3 : b.cells \ a.cells ≠ ∅) :
    AIState.inferences a b =
      some (mkSentence (b.cells \ a.cells) (b.count - a.count)) :=
  inferences_eq_some a b h1 h2 h3

/-- C3 witness: the amended theorem applied at an input whose derived
count is negative. -/
theorem C3_witness :
    AIState.inferences (mkSentence {((0:ℤ),(0:ℤ))} 5)
        (mkSentence {((0:ℤ),(0:ℤ)), (2,2)} 0) =
      some (mkSentence ({((0:ℤ),(0:ℤ)), (2,2)} \ {((0:ℤ),(0:ℤ))}) (0 - 5)) :=
  C3_amended_no_range_check (mkSentence {((0:ℤ),(0:ℤ))} 5)
    (mkSentence {((0:ℤ),(0:ℤ)), (2,2)} 0) (by decide) (by decide) (by decide)

/-- C6: feeding the same ordered observation sequence into two fresh
engines yields identical `safes` and `mines` sets (the engine is
deterministic). -/
theorem C6_determinism (h w : ℤ) (obs : List (Cell × ℤ)) (s1 s2 : AIState)
    (h1 : s1 = AIState.init h w) (h2 : s2 = AIState.init h w) :
    (s1.run obs).safes = (s2.run obs).safes ∧
    (s1.run obs).mines = (s2.run obs).mines := by
  subst h1; subst h2
  exact ⟨rfl, rfl⟩

/-- C6 witness: two fresh 2×2 engines fed the same observation agree. -/
theorem C6_witness :
    ((AIState.init 2 2).run [(((0:ℤ),(0:ℤ)), 1)]).safes =
      ((AIState.init 2 2).run [(((0:ℤ),(0:ℤ)), 1)]).safes ∧
    ((AIState.init 2 2).run [(((0:ℤ),(0:ℤ)), 1)]).mines =
      ((AIState.init 2 2).run [(((0:ℤ),(0:ℤ)), 1)]).mines :=
  C6_determinism 2 2 [(((0:ℤ),(0:ℤ)), 1)] _ _ rfl rfl

/-- The three global engine sets of one state are contained in those of
another. -/
def AIState.grows (s t : AIState) : Prop :=
  s.moves_made ⊆ t.moves_made ∧ s.mines ⊆ t.mines ∧ s.safes ⊆ t.safes

lemma grows_refl (s : AIState) : s.grows s :=
  ⟨Finset.Subset.refl _, Finset.Subset.refl _, Finset.Subset.refl _⟩

lemma grows_trans {a b c : AIState} (h1 : a.grows b) (h2 : b.grows c) :
    a.grows c :=
  ⟨h1.1.trans h2.1, h1.2.1.trans h2.2.1, h1.2.2.trans h2.2.2⟩

lemma foldl_grows {β : Type} (f : AIState → β → AIState)
    (hf : ∀ (a : AIState) (x : β), a.grows (f a x)) :
    ∀ (l : List β) (a : AIState), a.grows (l.foldl f a) := by
  intro l
  induction l with
  | nil => exact fun a => grows_refl a
  | cons x xs ih =>
    intro a
    exact grows_trans (hf a x) (ih (f a x))

lemma mark_safe_grows (st : AIState) (c : Cell) :
    st.grows (st.mark_safe c) :=
  ⟨Finset.Subset.refl _, Finset.Subset.refl _, Finset.subset_insert _ _⟩

lemma simplStep_grows (a : AIState) (k : ℕ) : a.grows (a.simplStep k) :=
  ⟨Finset.Subset.refl _, Finset.subset_union_left, Finset.subset_union_left⟩

lemma simplPass_grows (st : AIState) : st.grows st.simplPass := by
  unfold AIState.simplPass
  exact foldl_grows AIState.simplStep simplStep_grows _ st

lemma inferStep_grows (i : ℕ) (acc : AIState) (j : ℕ) :
    acc.grows (AIState.inferStep i acc j) := by
  unfold AIState.inferStep
  split
  · exact grows_refl acc
  · split
    · exact grows_refl acc
    · split
      · exact grows_refl acc
      · exact grows_refl acc

lemma inferencePass_grows (st : AIState) : st.grows st.inferencePass := by
  unfold AIState.inferencePass
  apply foldl_grows
  intro a i
  exact foldl_grows (AIState.inferStep i) (inferStep_grows i) _ a

lemma add_knowledge_grows (st : AIState) (cell : Cell) (count : ℤ) :
    st.grows (st.add_knowledge cell count) := by
  have h1 : st.grows { st with moves_made := insert cell st.moves_made } :=
    ⟨Finset.subset_insert _ _, Finset.Subset.refl _, Finset.Subset.refl _⟩
  have h2 := mark_safe_grows
    { st with moves_made := insert cell st.moves_made } cell
  have h3 : ({ st with moves_made := insert cell st.moves_made
      }.mark_safe cell).grows
      ((({ st with moves_made := insert cell st.moves_made }.mark_safe cell
        ).appendNewSentence cell count).appendParent) :=
    ⟨Finset.Subset.refl _, Finset.Subset.refl _, Finset.Subset.refl _⟩
  have h4 := simplPass_grows
    ((({ st with moves_made := insert cell st.moves_made }.mark_safe cell
      ).appendNewSentence cell count).appendParent)
  have h5 := inferencePass_grows
    ((({ st with moves_made := insert cell st.moves_made }.mark_safe cell
      ).appendNewSentence cell count).appendParent).simplPass
  exact grows_trans h1 (grows_trans h2 (grows_trans h3 (grows_trans h4 h5)))

/-- C5: across any call to `add_knowledge`, the sets `safes`, `mines` and
`moves_made` only grow: each is a subset of the same set afterwards (hence
they never shrink across any sequence of calls). -/
theorem C5_monotonicity (st : AIState) (cell : Cell) (count : ℤ) :
    st.safes ⊆ (st.add_knowledge cell count).safes ∧
    st.mines ⊆ (st.add_knowledge cell count).mines ∧
    st.moves_made ⊆ (st.add_knowledge cell count).moves_made := by
  have h := add_knowledge_grows st cell count
  exact ⟨h.2.2, h.2.1, h.1⟩

/-- A cell within one row and one column of `cell`, excluding `cell`
itself: the spec's 8-neighborhood. -/
def specNeighbor (cell p : Cell) : Prop :=
  p ≠ cell ∧ (p.1 - cell.1).natAbs ≤ 1 ∧ (p.2 - cell.2).natAbs ≤ 1

instance (cell p : Cell) : Decidable (specNeighbor cell p) :=
  inferInstanceAs (Decidable
    (p ≠ cell ∧ (p.1 - cell.1).natAbs ≤ 1 ∧ (p.2 - cell.2).natAbs ≤ 1))

/-- The spec's grid bounds `[0, h) × [0, w)`. -/
def inBounds (h w : ℤ) (p : Cell) : Prop :=
  0 ≤ p.1 ∧ p.1 < h ∧ 0 ≤ p.2 ∧ p.2 < w

instance (h w : ℤ) (p : Cell) : Decidable (inBounds h w p) :=
  inferInstanceAs (Decidable (0 ≤ p.1 ∧ p.1 < h ∧ 0 ≤ p.2 ∧ p.2 < w))

lemma nbhd_flatMap_eq (a b : ℤ) :
    ([a - 1, a, a + 1].flatMap fun i =>
      [b - 1, b, b + 1].map fun j => ((i, j) : Cell)) =
    [(a-1,b-1),(a-1,b),(a-1,b+1),(a,b-1),(a,b),(a,b+1),
     (a+1,b-1),(a+1,b),(a+1,b+1)] := rfl

lemma mem_nbhd (cell p : Cell) : p ∈ nbhd cell ↔ specNeighbor cell p := by
  rcases cell with ⟨a, b⟩
  rcases p with ⟨x, y⟩
  simp [nbhd, specNeighbor, Prod.ext_iff]
  omega

lemma nbhd_nodup (cell : Cell) : (nbhd cell).Nodup := by
  rcases cell with ⟨a, b⟩
  unfold nbhd
  apply List.Nodup.filter
  rw [nbhd_flatMap_eq]
  simp [List.nodup_cons, Prod.ext_iff]
  omega

/-- C4: `get_sentence` builds a statement whose cell set is exactly the
in-bounds 8-neighbors of the cell that are neither confirmed mines nor
confirmed safe, and whose count is the reported count minus the number of
in-bounds neighbors already confirmed as mines. -/
theorem C4_get_sentence_spec (st : AIState) (cell : Cell) (score : ℤ) :
    (∀ p : Cell, p ∈ (st.get_sentence cell score).cells ↔
      (specNeighbor cell p ∧ inBounds st.height st.width p ∧
        p ∉ st.mines ∧ p ∉ st.safes)) ∧
    (st.get_sentence cell score).count =
      score - ((st.mines.filter
        (fun p => specNeighbor cell p ∧
          inBounds st.height st.width p)).card : ℤ) := by
  constructor
  · intro p
    simp only [AIState.get_sentence, mkSentence, List.mem_toFinset,
      List.mem_filter, decide_eq_true_eq, mem_nbhd, inBounds]
    tauto
  · simp only [AIState.get_sentence, mkSentence]
    have hlen : (((nbhd cell).filter
          (fun p => decide (0 ≤ p.1 ∧ p.1 < st.height ∧ 0 ≤ p.2 ∧
            p.2 < st.width))).filter (fun p => decide (p ∈ st.mines))).length
        = (st.mines.filter (fun p => specNeighbor cell p ∧
            inBounds st.height st.width p)).card := by
      rw [← List.toFinset_card_of_nodup (((nbhd_nodup cell).filter _).filter _)]
      congr 1
      ext q
      simp only [List.mem_toFinset, List.mem_filter, Finset.mem_filter,
        decide_eq_true_eq, mem_nbhd, inBounds]
      tauto
    rw [hlen]

/-- All cells of an `h × w` grid. -/
def boardCells (h w : ℕ) : Finset Cell :=
  ((Finset.range h) ×ˢ (Finset.range w)).image fun p => ((p.1 : ℤ), (p.2 : ℤ))

lemma boardCells_card (h w : ℕ) : (boardCells h w).card = h * w := by
  rw [boardCells, Finset.card_image_of_injective, Finset.card_product,
    Finset.card_range, Finset.card_range]
  intro p q hpq
  simp only [Prod.ext_iff, Int.natCast_inj] at hpq
  exact Prod.ext hpq.1 hpq.2

lemma placeMines_some_card (target : ℤ) :
    ∀ (picks : List Cell) (acc ms : Finset Cell),
      placeMines target picks acc = some ms → (ms.card : ℤ) = target := by
  intro picks
  induction picks with
  | nil =>
    intro acc ms h
    unfold placeMines at h
    split at h
    · cases h
      assumption
    · cases h
  | cons p rest ih =>
    intro acc ms h
    unfold placeMines at h
    split at h
    · cases h
      assumption
    · exact ih (insert p acc) ms h

lemma placeMines_none_of_bound (target : ℤ) (U : Finset Cell)
    (hU : (U.card : ℤ) < target) :
    ∀ (picks : List Cell) (acc : Finset Cell), acc ⊆ U →
      (∀ p ∈ picks, p ∈ U) → placeMines target picks acc = none := by
  intro picks
  induction picks with
  | nil =>
    intro acc hacc _
    unfold placeMines
    rw [if_neg]
    have := Finset.card_le_card hacc
    omega
  | cons p rest ih =>
    intro acc hacc hp
    unfold placeMines
    rw [if_neg]
    · exact ih (insert p acc)
        (Finset.insert_subset (hp p (List.mem_cons_self p rest)) hacc)
        (fun q hq => hp q (List.mem_cons_of_mem p hq))
    · have := Finset.card_le_card hacc
      omega

lemma placeMines_none_of_neg (target : ℤ) (hneg : target < 0) :
    ∀ (picks : List Cell) (acc : Finset Cell),
      placeMines target picks acc = none := by
  intro picks
  induction picks with
  | nil =>
    intro acc
    unfold placeMines
    rw [if_neg]
    omega
  | cons p rest ih =>
    intro acc
    unfold placeMines
    rw [if_neg]
    · exact ih (insert p acc)
    · omega

/-- C7 counterexample: `mine_count = 1` on a `1 × 1` board lies outside
`[0, height*width)`, yet the constructor succeeds and places one mine
instead of failing with any configuration error. -/
theorem C7_counterexample :
    ¬ ((1:ℤ) < 1 * 1) ∧
    ((mkMinesweeper 1 1 1 [(0,0)]).map (fun b => b.mines.card)) = some 1 := by
  exact ⟨by decide, by decide⟩

/-- C7 amended: the constructor validates nothing and can signal no
configuration error. Whenever it terminates it has placed exactly
`mine_count` mines at distinct coordinates (so `mine_count` up to and
including `height*width` is accepted); when `mine_count` is negative or
exceeds `height*width`, the placement loop never terminates (no finite
in-bounds draw stream completes it). -/
theorem C7_amended_no_validation (h w : ℕ) (target : ℤ)
    (picks : List Cell) :
    (∀ b : Board, mkMinesweeper h w target picks = some b →
      (b.mines.card : ℤ) = target) ∧
    ((target < 0 ∨ ((h * w : ℕ) : ℤ) < target) →
      (∀ p ∈ picks, p ∈ boardCells h w) →
      mkMinesweeper h w target picks = none) := by
  constructor
  · intro b hb
    unfold mkMinesweeper at hb
    rcases hm : placeMines target picks ∅ with _ | ms
    · rw [hm] at hb
      cases hb
    · rw [hm] at hb
      cases hb
      exact placeMines_some_card target picks ∅ ms hm
  · intro htarget hpicks
    unfold mkMinesweeper
    rcases htarget with hneg | hbig
    · rw [placeMines_none_of_neg target hneg picks ∅]
      rfl
    · rw [placeMines_none_of_bound target (boardCells h w)
        (by rw [boardCells_card]; omega) picks ∅
        (Finset.empty_subset _) hpicks]
      rfl

/-- C7 witness: with `mine_count = 2` on a `1 × 1` board the constructor
never terminates (models the infinite `while` loop): every finite
in-bounds draw stream is exhausted. -/
theorem C7_witness : mkMinesweeper 1 1 2 [(0,0),(0,0)] = none :=
  (C7_amended_no_validation 1 1 2 [(0,0),(0,0)]).2 (Or.inr (by decide))
    (by decide)

lemma mkGrid_length (h w : ℕ) (ms : Finset Cell) :
    (mkGrid h w ms).length = h := by
  rw [mkGrid, List.length_map, List.length_range]

lemma mkGrid_pyGet (h w : ℕ) (ms : Finset Cell) (i : ℤ)
    (hi0 : 0 ≤ i) (hih : i < h) :
    pyGet (mkGrid h w ms) i =
      some ((List.range w).map fun (j : ℕ) =>
        decide (((i.toNat : ℤ), (j : ℤ)) ∈ ms)) := by
  have hi : i.toNat < h := by omega
  unfold pyGet mkGrid
  rw [if_pos hi0, List.get?_eq_getElem?, List.getElem?_map,
    List.getElem?_range hi, Option.map_some']

lemma is_mine_inb (h w : ℕ) (ms : Finset Cell) (i j : ℤ)
    (hi0 : 0 ≤ i) (hih : i < h) (hj0 : 0 ≤ j) (hjw : j < w) :
    Board.is_mine ⟨h, w, mkGrid h w ms, ms, ∅⟩ (i, j) =
      some (decide ((i, j) ∈ ms)) := by
  have hj : j.toNat < w := by omega
  unfold Board.is_mine
  rw [mkGrid_pyGet h w ms i hi0 hih]
  show pyGet _ j = _
  unfold pyGet
  rw [if_pos hj0, List.get?_eq_getElem?, List.getElem?_map,
    List.getElem?_range hj, Option.map_some']
  rw [Int.toNat_of_nonneg hi0, Int.toNat_of_nonneg hj0]

lemma is_mine_wrap (h w : ℕ) (ms : Finset Cell) (i j : ℤ)
    (hi0 : -(h:ℤ) ≤ i) (hih : i < 0) :
    Board.is_mine ⟨h, w, mkGrid h w ms, ms, ∅⟩ (i, j) =
      Board.is_mine ⟨h, w, mkGrid h w ms, ms, ∅⟩ (i + h, j) := by
  unfold Board.is_mine
  have hlen : ((mkGrid h w ms).length : ℤ) = h := by
    rw [mkGrid_length]
  have h1 : pyGet (mkGrid h w ms) i = pyGet (mkGrid h w ms) (i + h) := by
    unfold pyGet
    rw [if_neg (by omega), if_pos (by omega), if_pos (by omega)]
    rw [hlen]
  rw [h1]

lemma is_mine_high (h w : ℕ) (ms : Finset Cell) (i j : ℤ)
    (hih : (h:ℤ) ≤ i) :
    Board.is_mine ⟨h, w, mkGrid h w ms, ms, ∅⟩ (i, j) = none := by
  unfold Board.is_mine
  have h1 : pyGet (mkGrid h w ms) i = none := by
    unfold pyGet
    rw [if_pos (by omega), List.get?_eq_getElem?, List.getElem?_eq_none]
    rw [mkGrid_length]
    omega
  rw [h1]

lemma is_mine_low (h w : ℕ) (ms : Finset Cell) (i j : ℤ)
    (hil : i < -(h:ℤ)) :
    Board.is_mine ⟨h, w, mkGrid h w ms, ms, ∅⟩ (i, j) = none := by
  unfold Board.is_mine
  have h1 : pyGet (mkGrid h w ms) i = none := by
    unfold pyGet
    rw [if_neg (by omega), if_neg]
    rw [mkGrid_length]
    omega
  rw [h1]

lemma mkMinesweeper_some (h w : ℕ) (target : ℤ) (picks : List Cell)
    (b : Board) (hb : mkMinesweeper h w target picks = some b) :
    b = ⟨h, w, mkGrid h w b.mines, b.mines, ∅⟩ := by
  unfold mkMinesweeper at hb
  rcases hm : placeMines target picks ∅ with _ | ms <;> rw [hm] at hb
  · cases hb
  · cases hb
    rfl

/-- C8 counterexample: on a constructed `2 × 2` board with its single
mine at `(1,0)`, querying the out-of-bounds cell `(-1, 0)` does not fail:
it silently returns `true` (the status of cell `(1,0)`, indexed from the
end Python-style). -/
theorem C8_counterexample :
    ((mkMinesweeper 2 2 1 [(1,0)]).map fun b => b.is_mine (-1, 0)) =
      some (some true) := by
  decide

/-- C8 amended: `is_mine` returns the mine status of in-bounds cells; a
row coordinate in `[-height, 0)` (column in bounds) silently wraps
Python-style and returns the status of the row indexed from the end
instead of failing; a row coordinate outside `[-height, height)` raises
`IndexError` (modelled `none`); no `OutOfBounds` error kind exists. -/
theorem C8_amended_python_indexing (h w : ℕ) (target : ℤ)
    (picks : List Cell) (b : Board) (i j : ℤ)
    (hb : mkMinesweeper h w target picks = some b) :
    (0 ≤ i → i < h → 0 ≤ j → j < w →
      b.is_mine (i, j) = some (decide ((i, j) ∈ b.mines))) ∧
    (-(h:ℤ) ≤ i → i < 0 → b.is_mine (i, j) = b.is_mine (i + h, j)) ∧
    ((h:ℤ) ≤ i → b.is_mine (i, j) = none) ∧
    (i < -(h:ℤ) → b.is_mine (i, j) = none) := by
  have hbeq := mkMinesweeper_some h w target picks b hb
  refine ⟨?_, ?_, ?_, ?_⟩
  · intro hi0 hih hj0 hjw
    rw [hbeq]
    exact is_mine_inb h w b.mines i j hi0 hih hj0 hjw
  · intro hi0 hih
    rw [hbeq]
    exact is_mine_wrap h w b.mines i j hi0 hih
  · intro hih
    rw [hbeq]
    exact is_mine_high h w b.mines i j hih
  · intro hil
    rw [hbeq]
    exact is_mine_low h w b.mines i j hil

/-- C8 witness: concrete instantiation on a constructed `2 × 2` board:
the in-bounds query returns the mine status and the wrapped query equals
the in-bounds query of the last row. -/
theorem C8_witness :
    ((mkMinesweeper 2 2 1 [(1,0)]).getD
        ⟨2, 2, mkGrid 2 2 ∅, ∅, ∅⟩).is_mine (1, 0) =
      some (decide (((1:ℤ), (0:ℤ)) ∈
        ((mkMinesweeper 2 2 1 [(1,0)]).getD
          ⟨2, 2, mkGrid 2 2 ∅, ∅, ∅⟩).mines)) ∧
    ((mkMinesweeper 2 2 1 [(1,0)]).getD
        ⟨2, 2, mkGrid 2 2 ∅, ∅, ∅⟩).is_mine (-1, 0) =
      ((mkMinesweeper 2 2 1 [(1,0)]).getD
        ⟨2, 2, mkGrid 2 2 ∅, ∅, ∅⟩).is_mine (-1 + 2, 0) :=
  ⟨(C8_amended_python_indexing 2 2 1 [(1,0)] _ 1 0 rfl).1
      (by decide) (by decide) (by decide) (by decide),
   (C8_amended_python_indexing 2 2 1 [(1,0)] _ (-1) 0 rfl).2.1
      (by decide) (by decide)⟩

lemma simplAux (st : AIState) :
    ∀ n, n ≤ st.knowledge.length →
    ((List.range n).foldl AIState.simplStep st).knowledge.length
        = st.knowledge.length ∧
    (∀ m, m < n →
      (((List.range n).foldl AIState.simplStep st).knowledge.getD m
          defaultSentence).known_safes ⊆
        ((List.range n).foldl AIState.simplStep st).safes ∧
      (((List.range n).foldl AIState.simplStep st).knowledge.getD m
          defaultSentence).known_mines ⊆
        ((List.range n).foldl AIState.simplStep st).mines) := by
  intro n
  induction n with
  | zero =>
    intro _
    exact ⟨rfl, fun m hm => absurd hm (by omega)⟩
  | succ n ih =>
    intro hn
    obtain ⟨hlen, hm⟩ := ih (by omega)
    rw [List.range_succ, List.foldl_append, List.foldl_cons, List.foldl_nil]
    set r := (List.range n).foldl AIState.simplStep st with hr
    have hnlt : n < r.knowledge.length := by omega
    constructor
    · show (r.knowledge.set n _).length = _
      rw [List.length_set]
      exact hlen
    · intro m hm'
      show ((r.knowledge.set n _).getD m defaultSentence).known_safes ⊆
          r.safes ∪ _ ∧
        ((r.knowledge.set n _).getD m defaultSentence).known_mines ⊆
          r.mines ∪ _
      rcases eq_or_ne m n with hmn | hmn
      · subst hmn
        rw [List.getD_eq_getElem?_getD, List.getElem?_set_self hnlt]
        exact ⟨Finset.subset_union_right, Finset.subset_union_right⟩
      · have hmlt : m < n := by omega
        rw [List.getD_eq_getElem?_getD, List.getElem?_set_ne (Ne.symm hmn),
          ← List.getD_eq_getElem?_getD]
        obtain ⟨h1, h2⟩ := hm m hmlt
        exact ⟨h1.trans Finset.subset_union_left,
          h2.trans Finset.subset_union_left⟩

lemma foldl_pred {β : Type} (P : AIState → Prop) (f : AIState → β → AIState)
    (hf : ∀ (a : AIState) (x : β), P a → P (f a x)) :
    ∀ (l : List β) (a : AIState), P a → P (l.foldl f a) := by
  intro l
  induction l with
  | nil => exact fun a h => h
  | cons x xs ih => exact fun a h => ih (f a x) (hf a x h)

lemma inferences_knowns (a b sent : Sentence)
    (h : AIState.inferences a b = some sent) :
    sent.known_safes = ∅ ∧ sent.known_mines = ∅ := by
  unfold AIState.inferences at h
  split at h
  · cases h
  · split at h
    · dsimp only at h
      split at h
      · cases h
        exact ⟨rfl, rfl⟩
      · cases h
    · cases h

lemma inferStep_pres (S M : Finset Cell) (K : List Sentence) (i : ℕ)
    (acc : AIState) (j : ℕ)
    (h : acc.safes = S ∧ acc.mines = M ∧
      ∀ s ∈ acc.knowledge,
        s ∈ K ∨ (s.known_safes = ∅ ∧ s.known_mines = ∅)) :
    (AIState.inferStep i acc j).safes = S ∧
    (AIState.inferStep i acc j).mines = M ∧
    ∀ s ∈ (AIState.inferStep i acc j).knowledge,
      s ∈ K ∨ (s.known_safes = ∅ ∧ s.known_mines = ∅) := by
  obtain ⟨h1, h2, h3⟩ := h
  unfold AIState.inferStep
  split
  · exact ⟨h1, h2, h3⟩
  · split
    · exact ⟨h1, h2, h3⟩
    · next sent hsent =>
      split
      · refine ⟨h1, h2, ?_⟩
        intro s hs
        rcases List.mem_append.mp hs with hs' | hs'
        · exact h3 s hs'
        · right
          have hk := inferences_knowns _ _ sent hsent
          rw [List.mem_singleton.mp hs']
          exact hk
      · exact ⟨h1, h2, h3⟩

lemma inferencePass_pres (st : AIState) :
    st.inferencePass.safes = st.safes ∧
    st.inferencePass.mines = st.mines ∧
    ∀ s ∈ st.inferencePass.knowledge,
      s ∈ st.knowledge ∨ (s.known_safes = ∅ ∧ s.known_mines = ∅) := by
  unfold AIState.inferencePass
  refine foldl_pred (fun acc => acc.safes = st.safes ∧ acc.mines = st.mines ∧
    ∀ s ∈ acc.knowledge,
      s ∈ st.knowledge ∨ (s.known_safes = ∅ ∧ s.known_mines = ∅))
    _ ?_ _ st ⟨rfl, rfl, fun s hs => Or.inl hs⟩
  intro a i ha
  refine foldl_pred (fun acc => acc.safes = st.safes ∧ acc.mines = st.mines ∧
    ∀ s ∈ acc.knowledge,
      s ∈ st.knowledge ∨ (s.known_safes = ∅ ∧ s.known_mines = ∅))
    (AIState.inferStep i) ?_ _ a ha
  intro a' j ha'
  exact inferStep_pres st.safes st.mines st.knowledge i a' j ha'

/-- C1 counterexample: a fresh `2 × 4` engine is fed `(0,1) ↦ 1` and then
`(0,2) ↦ 0` (consistent with a single mine at `(0,0)`). During the second
call's simplification pass the cell `(1,1)` enters `safes` for the first
time (it was not in `safes` after the first call), yet the sentence at
index 0, which was present throughout the call and contained `(1,1)`,
still contains `(1,1)` after the call returns. Hence no `mark_safe`
broadcast is triggered for newly confirmed cells and the passes are not
iterated to the claimed fixed point. -/
theorem C1_counterexample :
    (((1:ℤ),(1:ℤ)) ∉ ((AIState.init 2 4).add_knowledge (0,1) 1).safes) ∧
    (((1:ℤ),(1:ℤ)) ∈
      (((AIState.init 2 4).add_knowledge (0,1) 1).knowledge.getD 0
        defaultSentence).cells) ∧
    (((1:ℤ),(1:ℤ)) ∈
      (((AIState.init 2 4).add_knowledge (0,1) 1).add_knowledge
        (0,2) 0).safes) ∧
    (((1:ℤ),(1:ℤ)) ∈
      ((((AIState.init 2 4).add_knowledge (0,1) 1).add_knowledge
        (0,2) 0).knowledge.getD 0 defaultSentence).cells) := by
  decide

/-- C1 amended: `add_knowledge` runs a single simplification pass that
concludes each statement and folds its `known_safes` / `known_mines` into
`safes` / `mines` without broadcasting `mark_safe` / `mark_mine` to the
other statements, followed by a single pairwise inference sweep; the two
passes are not repeated to a fixed point. Consequently, after the call
every statement's accumulated known cells are contained in the engine's
global sets, but statements may still carry cells that were newly
confirmed during the pass. -/
theorem C1_amended_single_pass_fold (st : AIState) (cell : Cell)
    (count : ℤ) (s : Sentence)
    (hs : s ∈ (st.add_knowledge cell count).knowledge) :
    s.known_safes ⊆ (st.add_knowledge cell count).safes ∧
    s.known_mines ⊆ (st.add_knowledge cell count).mines := by
  have hadd : st.add_knowledge cell count =
      (((({ st with moves_made := insert cell st.moves_made
        }.mark_safe cell).appendNewSentence cell count
        ).appendParent).simplPass).inferencePass := rfl
  set st4 := ((({ st with moves_made := insert cell st.moves_made
    }.mark_safe cell).appendNewSentence cell count).appendParent)
      with hst4
  rw [hadd] at hs ⊢
  obtain ⟨hsafes, hmines, hknow⟩ := inferencePass_pres st4.simplPass
  rw [hsafes, hmines]
  rcases hknow s hs with hmem | ⟨he1, he2⟩
  · have hsp : st4.simplPass =
        (List.range st4.knowledge.length).foldl AIState.simplStep st4 := rfl
    obtain ⟨hlen, hmm⟩ := simplAux st4 st4.knowledge.length (le_refl _)
    rw [hsp] at hmem
    obtain ⟨m, hmlt, hgetm⟩ := List.mem_iff_getElem.mp hmem
    have hmlt2 : m <
        ((List.range st4.knowledge.length).foldl AIState.simplStep
          st4).knowledge.length := hmlt
    have hmlt3 : m < st4.knowledge.length := by
      rw [hlen] at hmlt2
      exact hmlt2
    have hres := hmm m hmlt3
    rw [List.getD_eq_getElem _ _ hmlt2] at hres
    rw [hgetm] at hres
    rw [hsp]
    exact hres
  · rw [he1, he2]
    exact ⟨Finset.empty_subset _, Finset.empty_subset _⟩

/-- C1 witness: the fold guarantee instantiated on a fresh `2 × 2` engine
fed one observation. -/
theorem C1_witness :
    (((AIState.init 2 2).add_knowledge (0,0) 0).knowledge.getD 0
        defaultSentence).known_safes ⊆
      ((AIState.init 2 2).add_knowledge (0,0) 0).safes ∧
    (((AIState.init 2 2).add_knowledge (0,0) 0).knowledge.getD 0
        defaultSentence).known_mines ⊆
      ((AIState.init 2 2).add_knowledge (0,0) 0).mines :=
  C1_amended_single_pass_fold (AIState.init 2 2) (0,0) 0 _ (by decide)
